import Mathlib

/-!
Verification of the karaoke timing-and-alignment engine.

Times are modelled as rationals (the Python code computes in fractional
seconds); machine-float rounding is outside the model except where a value
is rounded to hundredths at serialization time, which is modelled
explicitly.
-/

namespace KaraokeTime

/-- A `(start, end, text)` row as produced by `load_csv` and consumed by
`write_ass` in `src/karaoke_time.py`.  `stop` stands for the Python tuple
field `end` (a Lean keyword). -/
structure Row where
  start : ℚ
  stop : ℚ
  text : String
deriving DecidableEq, Repr, Inhabited

/-- The constant `MIN_VISIBLE = 0.20` from `write_ass`
(src/karaoke_time.py line 113). -/
def MIN_VISIBLE : ℚ := 1/5

/-- The end time `write_ass` (src/karaoke_time.py lines 116-122) computes for
row `i`:
`adjusted_end = rows[i+1][0] - spacing_sec` when a successor exists, else
`end - buffer_sec`; then `adjusted_end = max(adjusted_end, start + MIN_VISIBLE)`. -/
def write_ass_stop (rows : List Row) (bufferSec spacingSec : ℚ) (i : ℕ) : ℚ :=
  let start := (rows.getD i default).start
  let adjustedEnd :=
    match rows.get? (i+1) with
    | some nxt => nxt.start - spacingSec
    | none => (rows.getD i default).stop - bufferSec
  max adjustedEnd (start + MIN_VISIBLE)

/-- The cue list `write_ass` (src/karaoke_time.py lines 111-126) emits: one
dialogue event per input row, keeping each row's start and text and replacing
its end by `write_ass_stop`.  (The fade tag prepended to the text and the
timestamp rendering are serialization details modelled separately.) -/
def write_ass_cues (rows : List Row) (bufferSec spacingSec : ℚ) : List Row :=
  rows.enum.map fun p => ⟨p.2.start, write_ass_stop rows bufferSec spacingSec p.1, p.2.text⟩

/-- `compute_rows_from_starts` from `src/karaoke_core.py` lines 67-75:
for each start `s` at index `i`,
`e = max(s + 0.2, starts[i+1] - spacing_sec)` when a successor exists,
else `e = s + 8.0 - buffer_sec`; the row text is `texts[i]` (callers
guarantee `len(texts) = len(starts)`; missing entries default to `""`). -/
def compute_rows_from_starts (starts : List ℚ) (texts : List String)
    (spacingSec bufferSec : ℚ) : List Row :=
  starts.enum.map fun p =>
    match starts.get? (p.1 + 1) with
    | some nxt => ⟨p.2, max (p.2 + 1/5) (nxt - spacingSec), texts.getD p.1 ""⟩
    | none => ⟨p.2, p.2 + 8 - bufferSec, texts.getD p.1 ""⟩

lemma write_ass_cues_length (rows : List Row) (b sp : ℚ) :
    (write_ass_cues rows b sp).length = rows.length := by
  simp [write_ass_cues]

lemma compute_rows_length (starts : List ℚ) (texts : List String) (sp b : ℚ) :
    (compute_rows_from_starts starts texts sp b).length = starts.length := by
  simp [compute_rows_from_starts]

lemma write_ass_cues_getD (rows : List Row) (b sp : ℚ) (i : ℕ) (h : i < rows.length) :
    (write_ass_cues rows b sp).getD i default =
      ⟨(rows.getD i default).start, write_ass_stop rows b sp i,
        (rows.getD i default).text⟩ := by
  simp [write_ass_cues, List.getD_eq_getElem?_getD, List.getElem?_eq_getElem h]

lemma compute_rows_getD (starts : List ℚ) (texts : List String) (sp b : ℚ) (i : ℕ)
    (h : i < starts.length) :
    (compute_rows_from_starts starts texts sp b).getD i default =
      match starts.get? (i+1) with
      | some nxt =>
          ⟨starts.getD i 0, max (starts.getD i 0 + 1/5) (nxt - sp), texts.getD i ""⟩
      | none =>
          ⟨starts.getD i 0, starts.getD i 0 + 8 - b, texts.getD i ""⟩ := by
  simp only [compute_rows_from_starts, List.getD_eq_getElem?_getD, List.getElem?_map,
    List.getElem?_enum, List.getElem?_eq_getElem h, Option.map_some', Option.getD_some]

/-- C1: the claim fails on the code.  With the sorted anchors `0` and `0.1`
and `spacing = 0.5`, `write_ass` gives the first cue the end
`max(0.1 − 0.5, 0 + 0.2) = 0.2`, which exceeds the second cue's start `0.1`:
the code has no overlap-buffer fallback, only the `MIN_VISIBLE` clamp, and
that clamp can push a cue's end past its successor's start. -/
theorem C1_spec_fails :
    write_ass_cues [⟨0, 3, "a"⟩, ⟨1/10, 31/10, "b"⟩] (1/2) (1/2)
      = [⟨0, 1/5, "a"⟩, ⟨1/10, 13/5, "b"⟩] ∧
    ¬ ((1/5 : ℚ) ≤ 1/10) := by
  constructor
  · norm_num [write_ass_cues, write_ass_stop, MIN_VISIBLE, List.enum, List.enumFrom, max_def]
  · norm_num

/-- C1 (amended): for every row list whose consecutive starts are at least
`MIN_VISIBLE = 0.2` seconds apart and every `spacing_seconds > 0`, the cue
list produced by `write_ass` satisfies `cue[i].end ≤ cue[i+1].start` for
every adjacent pair. -/
theorem C1_no_overlap_when_gapped (rows : List Row) (bufferSec spacingSec : ℚ)
    (hsp : 0 < spacingSec)
    (hgap : ∀ i, i + 1 < rows.length →
      (rows.getD i default).start + MIN_VISIBLE ≤ (rows.getD (i+1) default).start) :
    ∀ i, i + 1 < (write_ass_cues rows bufferSec spacingSec).length →
      ((write_ass_cues rows bufferSec spacingSec).getD i default).stop ≤
        ((write_ass_cues rows bufferSec spacingSec).getD (i+1) default).start := by
  intro i h
  have hlen : i + 1 < rows.length := by simpa [write_ass_cues_length] using h
  rw [write_ass_cues_getD rows bufferSec spacingSec i (Nat.lt_of_succ_lt hlen),
    write_ass_cues_getD rows bufferSec spacingSec (i+1) hlen]
  dsimp only
  have hsucc : rows.get? (i+1) = some (rows.getD (i+1) default) := by
    rw [List.get?_eq_getElem?, List.getElem?_eq_getElem hlen, List.getD_eq_getElem?_getD,
      List.getElem?_eq_getElem hlen]
    rfl
  unfold write_ass_stop
  rw [hsucc]
  dsimp only
  apply max_le
  · exact sub_le_self _ hsp.le
  · exact hgap i hlen

/-- Witness for `C1_no_overlap_when_gapped` at a concrete input. -/
theorem C1_no_overlap_when_gapped_witness :
    ((write_ass_cues [⟨0, 3, "a"⟩, ⟨1, 4, "b"⟩] (1/2) (1/2)).getD 0 default).stop ≤
      ((write_ass_cues [⟨0, 3, "a"⟩, ⟨1, 4, "b"⟩] (1/2) (1/2)).getD 1 default).start := by
  refine C1_no_overlap_when_gapped [⟨0, 3, "a"⟩, ⟨1, 4, "b"⟩] (1/2) (1/2) (by norm_num)
    ?_ 0 (by simp [write_ass_cues_length])
  intro i hi
  have h0 : i = 0 := by simp at hi; omega
  subst h0
  norm_num [List.getD, MIN_VISIBLE]

/-- C2: the claim fails on the code.  With consecutive starts `0.2` and `0.3`
(`0.1` apart), `spacing = 0.5` and the claimed `overlap_buffer = 0.05`,
`write_ass` produces the end `max(0.3 − 0.5, 0.2 + 0.2) = 0.4`, not
`next_start − 0.05 = 0.25`: no overlap-buffer path exists in the code. -/
theorem C2_spec_fails :
    write_ass_cues [⟨1/5, 3, "a"⟩, ⟨3/10, 16/5, "b"⟩] (1/2) (1/2)
      = [⟨1/5, 2/5, "a"⟩, ⟨3/10, 27/10, "b"⟩] ∧
    ¬ ((2/5 : ℚ) = 3/10 - 1/20) := by
  constructor
  · norm_num [write_ass_cues, write_ass_stop, MIN_VISIBLE, List.enum, List.enumFrom, max_def]
  · norm_num

/-- C2 (amended): whenever the spacing-derived candidate end
(`successor start − spacing`) would fall at or before `start + MIN_VISIBLE`,
the code sets the cue's end to `start + MIN_VISIBLE` (the minimum-visible
clamp); in particular for starts `0.1` apart with `spacing = 0.5` the
resulting end is `start + 0.2`, not `next_start − overlap_buffer`. -/
theorem C2_min_visible_floor (rows : List Row) (bufferSec spacingSec : ℚ) (i : ℕ)
    (h : i + 1 < rows.length)
    (hc : (rows.getD (i+1) default).start - spacingSec ≤
      (rows.getD i default).start + MIN_VISIBLE) :
    ((write_ass_cues rows bufferSec spacingSec).getD i default).stop =
      (rows.getD i default).start + MIN_VISIBLE := by
  rw [write_ass_cues_getD rows bufferSec spacingSec i (Nat.lt_of_succ_lt h)]
  dsimp only
  have hsucc : rows.get? (i+1) = some (rows.getD (i+1) default) := by
    rw [List.get?_eq_getElem?, List.getElem?_eq_getElem h, List.getD_eq_getElem?_getD,
      List.getElem?_eq_getElem h]
    rfl
  unfold write_ass_stop
  rw [hsucc]
  dsimp only
  exact max_eq_right hc

/-- Witness for `C2_min_visible_floor`: starts `0.2` and `0.3`, spacing `0.5`. -/
theorem C2_min_visible_floor_witness :
    ((write_ass_cues [⟨1/5, 3, "a"⟩, ⟨3/10, 16/5, "b"⟩] (1/2) (1/2)).getD 0 default).stop =
      (([⟨1/5, 3, "a"⟩, ⟨3/10, 16/5, "b"⟩] : List Row).getD 0 default).start + MIN_VISIBLE := by
  exact C2_min_visible_floor [⟨1/5, 3, "a"⟩, ⟨3/10, 16/5, "b"⟩] (1/2) (1/2) 0
    (by norm_num) (by norm_num [List.getD, MIN_VISIBLE])

/-- C3: the claim fails on the code.  `compute_rows_from_starts` applies no
minimum-visible clamp to the final cue: its end is `start + 8.0 − buffer_sec`
unconditionally, so with `buffer_sec = 8` the single cue has zero duration,
below `MIN_VISIBLE = 0.2`. -/
theorem C3_spec_fails :
    compute_rows_from_starts [0] ["a"] (1/4) 8 = [⟨0, 0, "a"⟩] ∧
    ¬ (MIN_VISIBLE ≤ (0 : ℚ) - 0) := by
  constructor
  · norm_num [compute_rows_from_starts, List.enum, List.enumFrom]
  · norm_num [MIN_VISIBLE]

/-- C3 (amended): `write_ass` clamps every cue (including the final one) to
duration at least `MIN_VISIBLE = 0.2`; `compute_rows_from_starts` guarantees
this only for non-final cues — its final cue's duration is the unclamped
`8.0 − buffer_sec`. -/
theorem C3_min_visible :
    (∀ (rows : List Row) (b sp : ℚ) (i : ℕ), i < rows.length →
      MIN_VISIBLE ≤ ((write_ass_cues rows b sp).getD i default).stop -
        ((write_ass_cues rows b sp).getD i default).start) ∧
    (∀ (starts : List ℚ) (texts : List String) (sp b : ℚ) (i : ℕ), i + 1 < starts.length →
      MIN_VISIBLE ≤ ((compute_rows_from_starts starts texts sp b).getD i default).stop -
        ((compute_rows_from_starts starts texts sp b).getD i default).start) := by
  constructor
  · intro rows b sp i h
    rw [write_ass_cues_getD rows b sp i h]
    dsimp only
    unfold write_ass_stop
    have := le_max_right
      (match rows.get? (i+1) with
        | some nxt => nxt.start - sp
        | none => (rows.getD i default).stop - b)
      ((rows.getD i default).start + MIN_VISIBLE)
    dsimp only at this ⊢
    linarith
  · intro starts texts sp b i h
    rw [compute_rows_getD starts texts sp b i (Nat.lt_of_succ_lt h)]
    have hsucc : starts.get? (i+1) = some (starts.getD (i+1) 0) := by
      rw [List.get?_eq_getElem?, List.getElem?_eq_getElem h, List.getD_eq_getElem?_getD,
        List.getElem?_eq_getElem h]
      rfl
    rw [hsucc]
    dsimp only
    have := le_max_left (starts.getD i 0 + 1/5) (starts.getD (i+1) 0 - sp)
    have hmv : MIN_VISIBLE = 1/5 := rfl
    rw [hmv]
    linarith

/-- Witness for `C3_min_visible` at concrete inputs. -/
theorem C3_min_visible_witness :
    MIN_VISIBLE ≤ ((write_ass_cues [⟨0, 3, "a"⟩] 3 (1/4)).getD 0 default).stop -
        ((write_ass_cues [⟨0, 3, "a"⟩] 3 (1/4)).getD 0 default).start ∧
    MIN_VISIBLE ≤ ((compute_rows_from_starts [0, 1] ["a", "b"] (1/4) (1/2)).getD 0 default).stop -
        ((compute_rows_from_starts [0, 1] ["a", "b"] (1/4) (1/2)).getD 0 default).start := by
  constructor
  · exact C3_min_visible.1 [⟨0, 3, "a"⟩] 3 (1/4) 0 (by norm_num)
  · exact C3_min_visible.2 [0, 1] ["a", "b"] (1/4) (1/2) 0 (by norm_num)

/-- C6: for the last anchor (no successor) `compute_rows_from_starts` sets
`end = start + (8.0 − buffer_sec)`, i.e. the tail duration is
`tail_duration_seconds = 8.0 − buffer_sec`; with `spacing = 0.5` and
`buffer_sec = 5` (tail duration `3.0`), the anchors `0.0, 2.0, 5.0` with
texts Hello/World/Goodbye produce exactly the cues
`Hello[0.00–1.50]`, `World[2.00–4.50]`, `Goodbye[5.00–8.00]`. -/
theorem C6_tail_duration :
    (∀ (starts : List ℚ) (texts : List String) (sp b : ℚ) (i : ℕ),
      i + 1 = starts.length →
      ((compute_rows_from_starts starts texts sp b).getD i default).stop =
        starts.getD i 0 + (8 - b)) ∧
    compute_rows_from_starts [0, 2, 5] ["Hello", "World", "Goodbye"] (1/2) 5
      = [⟨0, 3/2, "Hello"⟩, ⟨2, 9/2, "World"⟩, ⟨5, 8, "Goodbye"⟩] := by
  constructor
  · intro starts texts sp b i hlast
    rw [compute_rows_getD starts texts sp b i (by omega)]
    have hnone : starts.get? (i+1) = none := by
      rw [List.get?_eq_none]
      omega
    rw [hnone]
    ring
  · norm_num [compute_rows_from_starts, List.enum, List.enumFrom, max_def]

/-- Witness for `C6_tail_duration` at a concrete input. -/
theorem C6_tail_duration_witness :
    ((compute_rows_from_starts [1] ["x"] 0 0).getD 0 default).stop =
      ([(1 : ℚ)].getD 0 0) + (8 - 0) := by
  exact C6_tail_duration.1 [1] ["x"] 0 0 0 (by norm_num)

/-! ## Capture: `tap_collect_times` (src/karaoke_core.py lines 51-65) -/

/-- Outcome of a capture session: either the full list of recorded anchor
times, or an abort (`sys.exit(1)` on input `q`). -/
inductive TapResult where
  | done : List ℚ → TapResult
  | aborted : TapResult
deriving DecidableEq, Repr

/-- Python's `str.strip()` on the character-list view of a string (ASCII
whitespace). -/
def stripChars (l : List Char) : List Char :=
  ((l.dropWhile Char.isWhitespace).reverse.dropWhile Char.isWhitespace).reverse

/-- Python's `s.strip().lower()` (`lower` modelled for ASCII letters, the only
case the code distinguishes: the quit command `"q"`). -/
def pyStripLower (s : String) : String :=
  ⟨(stripChars s.data).map Char.toLower⟩

/-- The per-block loop of `tap_collect_times`: for block `i` the operator
input line is `inputs[i]` (missing entries model a plain Enter, `""`) and the
elapsed clock reading `time.perf_counter() - t0` at that moment is
`clock[i]`.  If `s.strip().lower() == "q"` the session aborts;
otherwise the elapsed time is appended and the next block is presented. -/
def tapLoop (inputs : List String) (clock : List ℚ) :
    List String → ℕ → List ℚ → TapResult
  | [], _, acc => .done acc
  | _ :: rest, i, acc =>
    if pyStripLower (inputs.getD i "") = "q" then .aborted
    else tapLoop inputs clock rest (i+1) (acc ++ [clock.getD i 0])

/-- `tap_collect_times(texts)` from src/karaoke_core.py, with the operator's
input lines and the monotone clock made explicit parameters. -/
def tap_collect_times (texts inputs : List String) (clock : List ℚ) : TapResult :=
  tapLoop inputs clock texts 0 []

lemma tapLoop_no_quit (inputs : List String) (clock : List ℚ) :
    ∀ (texts : List String) (i : ℕ) (acc : List ℚ),
      (∀ j, i ≤ j → j < i + texts.length → pyStripLower (inputs.getD j "") ≠ "q") →
      tapLoop inputs clock texts i acc =
        .done (acc ++ (List.range' i texts.length).map fun j => clock.getD j 0) := by
  intro texts
  induction texts with
  | nil => intro i acc _; simp [tapLoop, List.range']
  | cons t rest ih =>
    intro i acc h
    rw [tapLoop, if_neg (h i le_rfl (by simp))]
    rw [ih (i+1) (acc ++ [clock.getD i 0]) (fun j hj1 hj2 => h j (by omega) (by simp; omega))]
    simp [List.range']

lemma tapLoop_abort (inputs : List String) (clock : List ℚ) :
    ∀ (texts : List String) (i : ℕ) (acc : List ℚ) (k : ℕ),
      i ≤ k → k < i + texts.length →
      pyStripLower (inputs.getD k "") = "q" →
      (∀ j, i ≤ j → j < k → pyStripLower (inputs.getD j "") ≠ "q") →
      tapLoop inputs clock texts i acc = .aborted := by
  intro texts
  induction texts with
  | nil => intro i acc k h1 h2 _ _; simp at h2; omega
  | cons t rest ih =>
    intro i acc k h1 h2 hq hp
    rcases eq_or_lt_of_le h1 with heq | hlt
    · subst heq
      rw [tapLoop, if_pos hq]
    · rw [tapLoop, if_neg (hp i le_rfl hlt)]
      exact ih (i+1) (acc ++ [clock.getD i 0]) k hlt (by simp at h2 ⊢; omega) hq
        (fun j hj1 hj2 => hp j (by omega) hj2)

/-- C4: the claim fails on the code.  `tap_collect_times` has no undo
command: the input line `"undo"` is treated exactly like a plain advance
(its stripped lowercase form is not `"q"`), so after advancing once and then
typing `undo` the session holds two recorded anchors, not zero, and
finishes. -/
theorem C4_spec_fails :
    tap_collect_times ["a", "b"] ["", "undo"] [1, 2] = .done [1, 2] ∧
    tap_collect_times ["a", "b"] ["", ""] [1, 2] = .done [1, 2] := by
  exact ⟨rfl, rfl⟩

/-- C4 (amended): the supported operator commands are exactly *advance* (any
input whose stripped lowercase form is not `"q"`: the current block's clock
time is recorded and the next block presented) and *abort* (an input whose
stripped lowercase form is `"q"`: the session terminates at once, discarding
the result); there is no undo command. -/
theorem C4_commands (texts inputs : List String) (clock : List ℚ) :
    ((∀ i, i < texts.length → pyStripLower (inputs.getD i "") ≠ "q") →
      tap_collect_times texts inputs clock =
        .done ((List.range texts.length).map fun i => clock.getD i 0)) ∧
    (∀ k, k < texts.length → pyStripLower (inputs.getD k "") = "q" →
      (∀ i, i < k → pyStripLower (inputs.getD i "") ≠ "q") →
      tap_collect_times texts inputs clock = .aborted) := by
  constructor
  · intro h
    rw [tap_collect_times, tapLoop_no_quit inputs clock texts 0 []
      (fun j _ hj2 => h j (by omega))]
    rw [List.range_eq_range']
    simp
  · intro k hk hq hp
    exact tapLoop_abort inputs clock texts 0 [] k (Nat.zero_le k) (by omega) hq
      (fun j _ hj2 => hp j hj2)

/-- Witness for `C4_commands` at concrete inputs. -/
theorem C4_commands_witness :
    tap_collect_times ["a"] ["", ""] [2] =
      .done ((List.range 1).map fun i => (([2] : List ℚ).getD i 0)) ∧
    tap_collect_times ["a"] ["q"] [2] = .aborted := by
  constructor
  · exact (C4_commands ["a"] ["", ""] [2]).1
      (fun i hi => by
        have h0 : i = 0 := by simp at hi; omega
        subst h0
        decide)
  · exact (C4_commands ["a"] ["q"] [2]).2 0 (by norm_num) (by decide)
      (fun i hi => absurd hi (by omega))

/-! ## Timestamp parsing and the anchor-file reader
(src/scripts/karaoke_time.py lines 17-78) -/

/-- Python's `str.strip()`. -/
def pyStrip (s : String) : String := ⟨stripChars s.data⟩

/-- `strip('"')`: remove leading and trailing double-quote characters. -/
def stripQuotes (l : List Char) : List Char :=
  ((l.dropWhile (fun c => c == '"')).reverse.dropWhile (fun c => c == '"')).reverse

/-- The regex `^\d+(\.\d+)?$` used by `parse_timestamp` and `read_rows`:
one or more digits, optionally followed by a dot and one or more digits. -/
def isNumericToken (l : List Char) : Bool :=
  match l.dropWhile Char.isDigit with
  | [] => !(l.takeWhile Char.isDigit).isEmpty
  | c :: rest =>
    !(l.takeWhile Char.isDigit).isEmpty && c == '.' && !rest.isEmpty &&
      rest.all Char.isDigit

def parseNatAux (acc : ℕ) : List Char → ℕ
  | [] => acc
  | c :: rest => parseNatAux (10 * acc + (c.toNat - 48)) rest

/-- Value of an all-digit token. -/
def parseNatDigits (l : List Char) : ℕ := parseNatAux 0 l

/-- Python `int(s)` on digit tokens (surrounding whitespace tolerated).
On any other token Python raises an uncaught `ValueError`, crashing the
calling read; this total model returns a number there instead, so it is
faithful only on digit tokens, and every theorem below invokes it only on
those. -/
def pyInt (l : List Char) : ℕ := parseNatDigits (stripChars l)

/-- Python `float(s)` on unsigned decimal tokens `\d+(\.\d+)?`, `none`
otherwise.  Divergences from `float()`: signed, exponent and leading-dot
forms (`-2`, `1e3`, `.5`) are accepted by Python but rejected here, and
where the calling code has no `try`, a Python `ValueError` crashes the read
while the model substitutes a default.  It is faithful only on unsigned
decimal tokens (and on tokens where the caller catches the error); every
theorem below invokes it only on those. -/
def pyFloat? (l0 : List Char) : Option ℚ :=
  let l := stripChars l0
  if isNumericToken l then
    let ip := l.takeWhile Char.isDigit
    match l.dropWhile Char.isDigit with
    | [] => some (parseNatDigits ip)
    | _ :: frac => some ((parseNatDigits ip : ℚ) + (parseNatDigits frac : ℚ) / 10 ^ frac.length)
  else none

/-- `re.split(r"[:]", s)` on the character-list view. -/
def splitOnChar (sep : Char) : List Char → List (List Char)
  | [] => [[]]
  | c :: rest =>
    if c == sep then [] :: splitOnChar sep rest
    else
      match splitOnChar sep rest with
      | [] => [[c]]
      | h :: t => (c :: h) :: t

/-- `parse_timestamp` from src/scripts/karaoke_time.py lines 26-45: accepts
`H:MM:SS.xx`, `MM:SS.xx` or raw seconds `123.45`; anything else falls back to
`float(ts)` with `0.0` on failure.  The colon branches call `int`/`float`
with no `try`, so on malformed fields (`1:a`) the program raises an
uncaught `ValueError`, which this total model cannot represent, and the
bare fallback accepts signed/exponent tokens the model rejects; the model
is faithful exactly on raw-seconds tokens `\d+(\.\d+)?` and on colon
forms with digit fields (as produced by `ass_time_from_seconds`), the only
shapes the theorems below exercise. -/
def parse_timestamp (s : String) : ℚ :=
  let ts := stripChars s.data
  if isNumericToken ts then (pyFloat? ts).getD 0
  else
    match (splitOnChar ':' ts).map stripChars with
    | [h, m, sec] => (pyInt h : ℚ) * 3600 + (pyInt m : ℚ) * 60 + (pyFloat? sec).getD 0
    | [m, sec] => (pyInt m : ℚ) * 60 + (pyFloat? sec).getD 0
    | _ => (pyFloat? ts).getD 0

/-- An anchor as read back from a CSV file: a timestamp and its text. -/
structure Anchor where
  t : ℚ
  text : String
deriving DecidableEq, Repr, Inhabited

/-- Ascending-timestamp order on anchors (the `rows.sort(key=lambda x: x["t"])`
key). -/
def anchorLE (a b : Anchor) : Prop := a.t ≤ b.t

instance : DecidableRel anchorLE := fun a b => inferInstanceAs (Decidable (a.t ≤ b.t))

instance : IsTotal Anchor anchorLE := ⟨fun a b => le_total a.t b.t⟩

instance : IsTrans Anchor anchorLE := ⟨fun _ _ _ h1 h2 => le_trans h1 h2⟩

/-- The dictionary lookup `r.get(key, dflt)` under `csv.DictReader`: the row
dict is `dict(zip(fieldnames, row))`, so a duplicated field name keeps the
last occurrence; a field named in the header but missing from a short row is
modelled by the default. -/
def dictGet (fieldnames row : List String) (key dflt : String) : String :=
  match ((fieldnames.enum.filter fun p => p.2 == key).map Prod.fst).getLast? with
  | some i => row.getD i dflt
  | none => dflt

/-- `read_rows` from src/scripts/karaoke_time.py lines 48-78, on the
cell-level view of the CSV file (each element one parsed row of cells).
The first cell of the first row decides header presence: if it is numeric
(after `strip` and `strip('"')`) the file is read positionally
(rows with fewer than two cells skipped); otherwise the first row is the
`DictReader` header and fields are looked up as `timestamp` / `text`.
Rows whose stripped text is empty are removed and the result is sorted by
ascending timestamp (Python's stable sort, modelled by insertion sort). -/
def read_rows (csv : List (List String)) : List Anchor :=
  let header := csv.headD []
  let firstCell := stripQuotes (stripChars (header.headD "").data)
  let parsed :=
    if isNumericToken firstCell then
      csv.filterMap fun r =>
        if 2 ≤ r.length then
          some ⟨parse_timestamp (r.getD 0 ""), pyStrip (r.getD 1 "")⟩
        else none
    else
      csv.tail.map fun r =>
        ⟨parse_timestamp (dictGet header r "timestamp" "0"),
          pyStrip (dictGet header r "text" "")⟩
  List.insertionSort anchorLE (parsed.filter fun r => r.text != "")

/-- C8: the claim fails on the code.  A `time,lyric` header is not accepted:
`read_rows` looks up only the field names `timestamp` and `text`, so under a
`time,lyric` header every row's text defaults to `""` and is dropped; the
well-formed data row `1.0,hello` yields no anchor at all. -/
theorem C8_spec_fails :
    read_rows [["time", "lyric"], ["1.0", "hello"]] = [] ∧
    ([] : List Anchor) ≠ [⟨1, "hello"⟩] := by
  constructor
  · rfl
  · simp

/-- C8 (amended): only the `timestamp,text` header form is accepted: under it
every well-formed data row — one whose timestamp cell is a raw-seconds
token `\d+(\.\d+)?` (the domain on which `parse_timestamp` is faithful;
elsewhere the program can raise an uncaught `ValueError`) and whose
stripped text is nonempty — is parsed into an anchor
`(parse_timestamp(cell 0), strip(cell 1))` and none are dropped (the output
is a permutation of the parsed rows); under a `time,lyric` header every row
is dropped, whatever the data. -/
theorem C8_header_forms :
    (∀ data : List (List String),
      (∀ r ∈ data, isNumericToken (stripChars (r.getD 0 "0").data) = true) →
      (∀ r ∈ data, pyStrip (r.getD 1 "") ≠ "") →
      List.Perm (read_rows (["timestamp", "text"] :: data))
        (data.map fun r => ⟨parse_timestamp (r.getD 0 "0"), pyStrip (r.getD 1 "")⟩)) ∧
    (∀ data : List (List String), read_rows (["time", "lyric"] :: data) = []) := by
  constructor
  · intro data hwf hne
    unfold read_rows
    simp only [List.headD_cons, List.tail_cons]
    rw [if_neg (by decide)]
    have hmap : (data.map fun r =>
        (⟨parse_timestamp (dictGet ["timestamp", "text"] r "timestamp" "0"),
          pyStrip (dictGet ["timestamp", "text"] r "text" "")⟩ : Anchor)) =
        data.map fun r => ⟨parse_timestamp (r.getD 0 "0"), pyStrip (r.getD 1 "")⟩ := by
      apply List.map_congr_left
      intro r _
      rfl
    rw [hmap]
    have hfil : ((data.map fun r =>
        (⟨parse_timestamp (r.getD 0 "0"), pyStrip (r.getD 1 "")⟩ : Anchor)).filter
          fun r => r.text != "") =
        data.map fun r => ⟨parse_timestamp (r.getD 0 "0"), pyStrip (r.getD 1 "")⟩ := by
      apply List.filter_eq_self.mpr
      intro a ha
      obtain ⟨r, hr, hra⟩ := List.mem_map.mp ha
      subst hra
      simpa using hne r hr
    rw [hfil]
    exact List.perm_insertionSort anchorLE _
  · intro data
    unfold read_rows
    simp only [List.headD_cons, List.tail_cons]
    rw [if_neg (by decide)]
    have hfil : ((data.map fun r =>
        (⟨parse_timestamp (dictGet ["time", "lyric"] r "timestamp" "0"),
          pyStrip (dictGet ["time", "lyric"] r "text" "")⟩ : Anchor)).filter
          fun r => r.text != "") = [] := by
      rw [List.filter_map]
      have : ((fun (r : Anchor) => r.text != "") ∘ fun r =>
          (⟨parse_timestamp (dictGet ["time", "lyric"] r "timestamp" "0"),
            pyStrip (dictGet ["time", "lyric"] r "text" "")⟩ : Anchor)) = fun _ => false := by
        funext r
        rfl
      rw [this]
      simp
    rw [hfil]
    rfl

/-- Witness for `C8_header_forms` at a concrete input. -/
theorem C8_header_forms_witness :
    List.Perm (read_rows (["timestamp", "text"] :: [["1.0", "hi"]]))
      ([["1.0", "hi"]].map fun r => ⟨parse_timestamp (r.getD 0 "0"), pyStrip (r.getD 1 "")⟩) := by
  exact C8_header_forms.1 [["1.0", "hi"]] (by decide) (by decide)

/-- C10: whatever the CSV contents and row order, `read_rows` returns anchors
sorted by non-decreasing timestamp with every empty-text row removed. -/
theorem C10_reader_sorted_and_nonempty (csv : List (List String)) :
    (read_rows csv).Sorted anchorLE ∧ ∀ r ∈ read_rows csv, r.text ≠ "" := by
  constructor
  · exact List.sorted_insertionSort anchorLE _
  · intro r hr
    unfold read_rows at hr
    have hmem := (List.perm_insertionSort anchorLE _).mem_iff.mp hr
    have := List.of_mem_filter hmem
    simpa using this

/-! ## Text Aligner: `override_lyrics_with_genius.py` -/

/-- The characters removed by `normalize`'s first `re.sub`
(`“”"(),.?!:;—–[]{}`; the braces are written via their code points). -/
def isStrippedPunct (c : Char) : Bool :=
  c == '“' || c == '”' || c == '"' || c == '(' || c == ')' || c == ',' || c == '.' ||
    c == '?' || c == '!' || c == ':' || c == ';' || c == '—' || c == '–' ||
    c == '[' || c == ']' || c == Char.ofNat 123 || c == Char.ofNat 125

/-- `re.sub(r"\s+", " ", s)`: each maximal whitespace run becomes one space.
The flag records whether the previous character was whitespace. -/
def collapseWSAux : Bool → List Char → List Char
  | _, [] => []
  | inRun, c :: rest =>
    if c.isWhitespace then
      if inRun then collapseWSAux true rest
      else ' ' :: collapseWSAux true rest
    else c :: collapseWSAux false rest

/-- `normalize` from override_lyrics_with_genius.py lines 18-22: strip,
replace `’` by `'`, remove punctuation, collapse whitespace, lowercase
(lowercasing modelled for ASCII letters). -/
def normalize (s : String) : String :=
  let l1 := (stripChars s.data).map fun c => if c == '’' then Char.ofNat 39 else c
  let l2 := l1.filter fun c => !(isStrippedPunct c)
  ⟨(collapseWSAux false l2).map Char.toLower⟩

/-- `chosen.replace("\\n", "\\N")`: each two-character sequence
backslash-`n` becomes backslash-`N`, scanning left to right. -/
def replaceBackslashN : List Char → List Char
  | [] => []
  | '\\' :: 'n' :: rest => '\\' :: 'N' :: replaceBackslashN rest
  | c :: rest => c :: replaceBackslashN rest

def escapeNL (s : String) : String := ⟨replaceBackslashN s.data⟩

/-- The loop body of `best_match_for`: scan candidate indices left to right,
skip indices already `in used`, and take a new best only on a strictly
greater score (initial best score `0.0`, initial index `None`). -/
def bmFold (score : ℕ → ℚ) (used : List ℕ) : List ℕ → Option ℕ × ℚ → Option ℕ × ℚ
  | [], best => best
  | i :: rest, best =>
    if i ∈ used then bmFold score used rest best
    else if best.2 < score i then bmFold score used rest (some i, score i)
    else bmFold score used rest best

/-- `best_match_for(line, genius_lines, used)` from
override_lyrics_with_genius.py lines 36-45, with the `SequenceMatcher`
ratio abstracted as `ratio` (applied, as in the code, to the normalized
strings).  `enumerate(genius_lines)` yields exactly the pairs
`(i, genius_lines[i])` for `i < len(genius_lines)`. -/
def best_match_for (ratio : String → String → ℚ) (line : String)
    (genius_lines : List String) (used : List ℕ) : Option ℕ × ℚ :=
  bmFold (fun i => ratio (normalize line) (normalize (genius_lines.getD i "")))
    used (List.range genius_lines.length) (none, 0)

/-- The not-yet-consumed authoritative indices, in original order
(`[i for i in range(len(genius_lines)) if i not in used]`). -/
def unconsumedIdx (n : ℕ) (used : List ℕ) : List ℕ :=
  (List.range n).filter fun i => !(used.contains i)

/-- `remaining[0]` when it exists: the first unconsumed index. -/
def firstUnused (n : ℕ) (used : List ℕ) : Option ℕ := (unconsumedIdx n used).head?

/-- One iteration of `main`'s loop (override_lyrics_with_genius.py lines
59-70) for whisper row `w = (timestamp, text)` with the current `used` set
(as a list of consumed indices): the emitted row (text escaped via
`replace("\\n", "\\N")`) and the updated `used`. -/
def overrideStep (ratio : String → String → ℚ) (genius : List String) (minSim : ℚ)
    (used : List ℕ) (w : String × String) : (String × String) × List ℕ :=
  let bm := best_match_for ratio w.2 genius used
  match bm.1 with
  | some i =>
    if minSim ≤ bm.2 then ((w.1, escapeNL (genius.getD i "")), i :: used)
    else
      match firstUnused genius.length used with
      | some j => ((w.1, escapeNL (genius.getD j "")), j :: used)
      | none => ((w.1, escapeNL w.2), used)
  | none =>
    match firstUnused genius.length used with
    | some j => ((w.1, escapeNL (genius.getD j "")), j :: used)
    | none => ((w.1, escapeNL w.2), used)

/-- `main`'s loop over the whisper rows, threading the `used` set; returns
the output rows and the final `used` list. -/
def overrideLoop (ratio : String → String → ℚ) (genius : List String) (minSim : ℚ) :
    List (String × String) → List ℕ → List (String × String) × List ℕ
  | [], used => ([], used)
  | w :: rest, used =>
    let st := overrideStep ratio genius minSim used w
    let r := overrideLoop ratio genius minSim rest st.2
    (st.1 :: r.1, r.2)

/-- `main`'s output rows: the aligned `(timestamp, text)` list. -/
def override_main (ratio : String → String → ℚ) (whisper : List (String × String))
    (genius : List String) (minSim : ℚ) : List (String × String) :=
  (overrideLoop ratio genius minSim whisper []).1

/-- The earliest index attaining the maximal score (ties broken towards the
earlier index): the reference reading of the spec's "select the
highest-scoring candidate". -/
def argmaxEarliest (score : ℕ → ℚ) : List ℕ → Option (ℕ × ℚ)
  | [] => none
  | i :: rest =>
    match argmaxEarliest score rest with
    | none => some (i, score i)
    | some (j, s) => if s ≤ score i then some (i, score i) else some (j, s)

/-- One step of the greedy reference aligner, transcribed from the spec's
words: score every not-yet-consumed authoritative line, select the
highest-scoring one; consume it if its score reaches `min_similarity`, else
consume the first unconsumed line in original order; if none remain keep the
segment's noisy text. -/
def alignSpecStep (ratio : String → String → ℚ) (genius : List String) (minSim : ℚ)
    (used : List ℕ) (w : String × String) : (String × String) × List ℕ :=
  match argmaxEarliest (fun i => ratio (normalize w.2) (normalize (genius.getD i "")))
      (unconsumedIdx genius.length used) with
  | none => ((w.1, w.2), used)
  | some (j, s) =>
    if minSim ≤ s then ((w.1, genius.getD j ""), j :: used)
    else
      match firstUnused genius.length used with
      | some k => ((w.1, genius.getD k ""), k :: used)
      | none => ((w.1, w.2), used)

/-- The greedy reference aligner over all segments. -/
def alignSpecLoop (ratio : String → String → ℚ) (genius : List String) (minSim : ℚ) :
    List (String × String) → List ℕ → List (String × String)
  | [], _ => []
  | w :: rest, used =>
    (alignSpecStep ratio genius minSim used w).1 ::
      alignSpecLoop ratio genius minSim rest (alignSpecStep ratio genius minSim used w).2

lemma bmFold_filter (score : ℕ → ℚ) (used : List ℕ) :
    ∀ (l : List ℕ) (b : Option ℕ × ℚ),
      bmFold score used l b = bmFold score [] (l.filter fun i => !(used.contains i)) b := by
  intro l
  induction l with
  | nil => intro b; rfl
  | cons i rest ih =>
    intro b
    by_cases h : i ∈ used
    · have hc : used.contains i = true := by simpa using h
      rw [bmFold, if_pos h, List.filter_cons]
      simp only [hc, Bool.not_true, Bool.false_eq_true, if_false]
      exact ih b
    · have hc : used.contains i = false := by simpa using h
      rw [bmFold, if_neg h, List.filter_cons]
      simp only [hc, Bool.not_false, if_true]
      rw [bmFold, if_neg (List.not_mem_nil i)]
      by_cases hlt : b.2 < score i
      · rw [if_pos hlt, if_pos hlt, ih]
      · rw [if_neg hlt, if_neg hlt, ih]

lemma bmFold_argmax (score : ℕ → ℚ) :
    ∀ (l : List ℕ) (b : Option ℕ × ℚ),
      bmFold score [] l b =
        match argmaxEarliest score l with
        | none => b
        | some (j, s) => if b.2 < s then (some j, s) else b := by
  intro l
  induction l with
  | nil => intro b; rfl
  | cons i rest ih =>
    intro b
    rw [bmFold, if_neg (List.not_mem_nil i)]
    rcases hrest : argmaxEarliest score rest with _ | ⟨j, s⟩
    · have hcons : argmaxEarliest score (i :: rest) = some (i, score i) := by
        rw [argmaxEarliest, hrest]
      rw [hcons]
      by_cases hlt : b.2 < score i
      · rw [if_pos hlt, ih (some i, score i), hrest]
        dsimp only
        rw [if_pos hlt]
      · rw [if_neg hlt, ih b, hrest]
        dsimp only
        rw [if_neg hlt]
    · have hcons : argmaxEarliest score (i :: rest) =
          if s ≤ score i then some (i, score i) else some (j, s) := by
        rw [argmaxEarliest, hrest]
      rw [hcons]
      by_cases hsi : s ≤ score i
      · rw [if_pos hsi]
        by_cases hlt : b.2 < score i
        · rw [if_pos hlt, ih (some i, score i), hrest]
          dsimp only
          rw [if_neg (not_lt.mpr hsi), if_pos hlt]
        · rw [if_neg hlt, ih b, hrest]
          dsimp only
          have hbs : ¬ b.2 < s := by
            have := not_lt.mp hlt
            intro hco
            exact absurd (lt_of_lt_of_le hco hsi) (not_lt.mpr this)
          rw [if_neg hbs, if_neg hlt]
      · rw [if_neg hsi]
        have his : score i < s := not_le.mp hsi
        by_cases hlt : b.2 < score i
        · rw [if_pos hlt, ih (some i, score i), hrest]
          dsimp only
          rw [if_pos his, if_pos (lt_trans hlt his)]
        · rw [if_neg hlt, ih b, hrest]

lemma argmax_eq_none_iff (f : ℕ → ℚ) (l : List ℕ) :
    argmaxEarliest f l = none ↔ l = [] := by
  cases l with
  | nil => simp [argmaxEarliest]
  | cons i rest =>
    constructor
    · intro h
      exfalso
      rw [argmaxEarliest] at h
      rcases hrest : argmaxEarliest f rest with _ | ⟨j, s⟩
      · rw [hrest] at h
        dsimp only at h
        exact Option.noConfusion h
      · rw [hrest] at h
        dsimp only at h
        split_ifs at h <;> exact Option.noConfusion h
    · intro h
      exact List.noConfusion h

lemma argmax_mem_le (f : ℕ → ℚ) :
    ∀ (l : List ℕ) (j : ℕ) (s : ℚ), argmaxEarliest f l = some (j, s) →
      s = f j ∧ j ∈ l ∧ ∀ i ∈ l, f i ≤ s := by
  intro l
  induction l with
  | nil => intro j s h; exact Option.noConfusion h
  | cons i rest ih =>
    intro j s h
    rw [argmaxEarliest] at h
    rcases hrest : argmaxEarliest f rest with _ | ⟨j2, s2⟩ <;> rw [hrest] at h
    · dsimp only at h
      simp only [Option.some.injEq, Prod.mk.injEq] at h
      obtain ⟨hj, hs⟩ := h
      rw [← hj, ← hs]
      have hrestnil : rest = [] := (argmax_eq_none_iff f rest).mp hrest
      subst hrestnil
      refine ⟨rfl, List.mem_cons_self _ _, ?_⟩
      intro x hx
      rcases List.mem_cons.mp hx with hx | hx
      · subst hx; exact le_refl _
      · exact absurd hx (List.not_mem_nil x)
    · dsimp only at h
      split_ifs at h with hcmp
      · simp only [Option.some.injEq, Prod.mk.injEq] at h
        obtain ⟨hj, hs⟩ := h
        rw [← hj, ← hs]
        obtain ⟨hs2, hmem2, hle2⟩ := ih j2 s2 hrest
        refine ⟨rfl, List.mem_cons_self _ _, ?_⟩
        intro x hx
        rcases List.mem_cons.mp hx with hx | hx
        · subst hx; exact le_refl _
        · exact le_trans (hle2 x hx) hcmp
      · simp only [Option.some.injEq, Prod.mk.injEq] at h
        obtain ⟨hj, hs⟩ := h
        rw [← hj, ← hs]
        obtain ⟨hs2, hmem2, hle2⟩ := ih j2 s2 hrest
        refine ⟨hs2, List.mem_cons_of_mem _ hmem2, ?_⟩
        intro x hx
        rcases List.mem_cons.mp hx with hx | hx
        · subst hx; exact le_of_lt (not_le.mp hcmp)
        · exact hle2 x hx

lemma argmax_all_zero (f : ℕ → ℚ) :
    ∀ (l : List ℕ), (∀ i ∈ l, f i = 0) →
      argmaxEarliest f l = l.head?.map fun i => (i, 0) := by
  intro l
  induction l with
  | nil => intro _; rfl
  | cons i rest ih =>
    intro h
    rw [argmaxEarliest, ih (fun x hx => h x (List.mem_cons_of_mem _ hx))]
    have hi : f i = 0 := h i (List.mem_cons_self _ _)
    cases rest with
    | nil => simp [hi]
    | cons i2 rest2 =>
      simp only [List.head?, Option.map_some']
      rw [if_pos (by rw [hi])]
      simp [hi]

lemma best_match_for_eq (ratio : String → String → ℚ) (line : String)
    (genius : List String) (used : List ℕ) :
    best_match_for ratio line genius used =
      match argmaxEarliest (fun i => ratio (normalize line) (normalize (genius.getD i "")))
          (unconsumedIdx genius.length used) with
      | none => ((none : Option ℕ), (0 : ℚ))
      | some (j, s) => if 0 < s then (some j, s) else (none, 0) := by
  have hflt : List.filter (fun i => !used.contains i) (List.range genius.length)
      = unconsumedIdx genius.length used := rfl
  rw [best_match_for, bmFold_filter, bmFold_argmax, hflt]

lemma firstUnused_not_used {n : ℕ} {used : List ℕ} {j : ℕ}
    (h : firstUnused n used = some j) : j ∉ used := by
  rw [firstUnused] at h
  have hmem : j ∈ unconsumedIdx n used := by
    apply List.mem_of_mem_head?
    rw [h]
    rfl
  rw [unconsumedIdx] at hmem
  have := List.of_mem_filter hmem
  simpa using this

lemma bm_some_not_used (ratio : String → String → ℚ) (line : String)
    (genius : List String) (used : List ℕ) (i : ℕ)
    (h : (best_match_for ratio line genius used).1 = some i) : i ∉ used := by
  rw [best_match_for_eq] at h
  rcases hm : argmaxEarliest (fun k => ratio (normalize line) (normalize (genius.getD k "")))
      (unconsumedIdx genius.length used) with _ | ⟨j, s⟩ <;> rw [hm] at h
  · dsimp only at h
    exact Option.noConfusion h
  · dsimp only at h
    split_ifs at h with hs
    · simp only [Option.some.injEq] at h
      subst h
      obtain ⟨_, hjmem, _⟩ := argmax_mem_le _ _ j s hm
      rw [unconsumedIdx] at hjmem
      have := List.of_mem_filter hjmem
      simpa using this

lemma step_agrees (ratio : String → String → ℚ) (hnn : ∀ a b, 0 ≤ ratio a b)
    (genius : List String) (minSim : ℚ) (used : List ℕ) (w : String × String) :
    overrideStep ratio genius minSim used w =
      (((alignSpecStep ratio genius minSim used w).1.1,
        escapeNL (alignSpecStep ratio genius minSim used w).1.2),
        (alignSpecStep ratio genius minSim used w).2) := by
  set f := fun i => ratio (normalize w.2) (normalize (genius.getD i "")) with hfdef
  rcases hm : argmaxEarliest f (unconsumedIdx genius.length used) with _ | ⟨j, s⟩
  · have hl : unconsumedIdx genius.length used = [] := (argmax_eq_none_iff f _).mp hm
    have hfu : firstUnused genius.length used = none := by
      rw [firstUnused, hl]
      rfl
    unfold overrideStep alignSpecStep
    rw [best_match_for_eq, ← hfdef, hm, hfu]
  · obtain ⟨hsval, hjmem, hle⟩ := argmax_mem_le f _ j s hm
    have hlne : unconsumedIdx genius.length used ≠ [] := by
      intro hc
      rw [hc] at hjmem
      exact List.not_mem_nil j hjmem
    by_cases hs : 0 < s
    · obtain ⟨k, hk⟩ : ∃ k, firstUnused genius.length used = some k := by
        rcases hu : unconsumedIdx genius.length used with _ | ⟨k, tl⟩
        · exact absurd hu hlne
        · exact ⟨k, by rw [firstUnused, hu]; rfl⟩
      unfold overrideStep alignSpecStep
      rw [best_match_for_eq, ← hfdef, hm]
      dsimp only
      rw [if_pos hs]
      dsimp only
      by_cases hmin : minSim ≤ s
      · simp [if_pos hmin]
      · simp [if_neg hmin, hk]
    · have hs0 : s = 0 := le_antisymm (not_lt.mp hs) (hsval ▸ hnn _ _)
      have hall : ∀ i ∈ unconsumedIdx genius.length used, f i = 0 := by
        intro i hi
        exact le_antisymm (hs0 ▸ hle i hi) (hnn _ _)
      have hhead := argmax_all_zero f _ hall
      rw [hm] at hhead
      have hj_head : (unconsumedIdx genius.length used).head? = some j := by
        rcases hu : (unconsumedIdx genius.length used).head? with _ | k2 <;> rw [hu] at hhead
        · exact Option.noConfusion hhead
        · simp only [Option.map_some', Option.some.injEq, Prod.mk.injEq] at hhead
          rw [hhead.1]
      have hfv : firstUnused genius.length used = some j := by
        rw [firstUnused, hj_head]
      unfold overrideStep alignSpecStep
      rw [best_match_for_eq, ← hfdef, hm]
      dsimp only
      rw [if_neg hs]
      dsimp only
      by_cases hmin : minSim ≤ s
      · simp [if_pos hmin, hfv]
      · simp [if_neg hmin, hfv]

lemma overrideLoop_fst (ratio : String → String → ℚ) (hnn : ∀ a b, 0 ≤ ratio a b)
    (genius : List String) (minSim : ℚ) :
    ∀ (whisper : List (String × String)) (used : List ℕ),
      (overrideLoop ratio genius minSim whisper used).1 =
        (alignSpecLoop ratio genius minSim whisper used).map fun r => (r.1, escapeNL r.2) := by
  intro whisper
  induction whisper with
  | nil => intro used; rfl
  | cons w rest ih =>
    intro used
    rw [overrideLoop, alignSpecLoop]
    dsimp only
    rw [step_agrees ratio hnn genius minSim used w]
    dsimp only
    rw [List.map_cons, ih]

lemma alignSpecLoop_length (ratio : String → String → ℚ) (genius : List String) (minSim : ℚ) :
    ∀ (whisper : List (String × String)) (used : List ℕ),
      (alignSpecLoop ratio genius minSim whisper used).length = whisper.length := by
  intro whisper
  induction whisper with
  | nil => intro used; rfl
  | cons w rest ih =>
    intro used
    rw [alignSpecLoop]
    simp [ih]

/-- C5: the claim fails on the code.  The aligner does not keep a segment's
noisy text verbatim: every emitted text field undergoes
`replace("\\n", "\\N")`, so a segment whose text contains the two-character
escape backslash-`n` (and no authoritative lines to consume) comes out with
backslash-`N` instead, differing from the greedy reference's output. -/
theorem C5_spec_fails :
    override_main (fun _ _ => 0) [("1", "a\\nb")] [] (3/10) = [("1", "a\\Nb")] ∧
    alignSpecLoop (fun _ _ => 0) [] (3/10) [("1", "a\\nb")] [] = [("1", "a\\nb")] ∧
    ("a\\Nb" : String) ≠ "a\\nb" := by
  refine ⟨rfl, rfl, by decide⟩

/-- C5 (amended): for every similarity function with non-negative scores
(as `SequenceMatcher.ratio`, valued in `[0,1]`), every segment list,
authoritative-line list and threshold, the aligner's output equals the
greedy reference output with the line-break escape (`\n` → `\N`) applied to
every text field, and its length equals the segment count. -/
theorem C5_greedy_refinement (ratio : String → String → ℚ)
    (hnn : ∀ a b, 0 ≤ ratio a b) (whisper : List (String × String))
    (genius : List String) (minSim : ℚ) :
    override_main ratio whisper genius minSim =
      (alignSpecLoop ratio genius minSim whisper []).map (fun r => (r.1, escapeNL r.2)) ∧
    (override_main ratio whisper genius minSim).length = whisper.length := by
  have h1 := overrideLoop_fst ratio hnn genius minSim whisper []
  refine ⟨h1, ?_⟩
  show ((overrideLoop ratio genius minSim whisper []).1).length = whisper.length
  rw [h1, List.length_map, alignSpecLoop_length]

/-- Witness for `C5_greedy_refinement` at a concrete input. -/
theorem C5_greedy_refinement_witness :
    override_main (fun _ _ => 0) [("1", "hello")] ["world"] (3/10) =
      (alignSpecLoop (fun _ _ => 0) ["world"] (3/10) [("1", "hello")] []).map
        (fun r => (r.1, escapeNL r.2)) ∧
    (override_main (fun _ _ => 0) [("1", "hello")] ["world"] (3/10)).length = 1 := by
  exact C5_greedy_refinement (fun _ _ => 0) (fun a b => le_refl 0)
    [("1", "hello")] ["world"] (3/10)

lemma step_used_cases (ratio : String → String → ℚ) (genius : List String) (minSim : ℚ)
    (used : List ℕ) (w : String × String) :
    (overrideStep ratio genius minSim used w).2 = used ∨
      ∃ j, j ∉ used ∧ (overrideStep ratio genius minSim used w).2 = j :: used := by
  unfold overrideStep
  dsimp only
  rcases hbm : (best_match_for ratio w.2 genius used).1 with _ | i
  · dsimp only
    rcases hfu : firstUnused genius.length used with _ | j
    · left; rfl
    · right; exact ⟨j, firstUnused_not_used hfu, rfl⟩
  · dsimp only
    by_cases hmin : minSim ≤ (best_match_for ratio w.2 genius used).2
    · rw [if_pos hmin]
      right
      exact ⟨i, bm_some_not_used ratio w.2 genius used i hbm, rfl⟩
    · rw [if_neg hmin]
      rcases hfu : firstUnused genius.length used with _ | j
      · left; rfl
      · right; exact ⟨j, firstUnused_not_used hfu, rfl⟩

lemma overrideLoop_used_nodup (ratio : String → String → ℚ) (genius : List String)
    (minSim : ℚ) :
    ∀ (whisper : List (String × String)) (used : List ℕ),
      used.Nodup → ((overrideLoop ratio genius minSim whisper used).2).Nodup := by
  intro whisper
  induction whisper with
  | nil => intro used h; exact h
  | cons w rest ih =>
    intro used h
    rw [overrideLoop]
    dsimp only
    apply ih
    rcases step_used_cases ratio genius minSim used w with hc | ⟨j, hj, hc⟩
    · rw [hc]; exact h
    · rw [hc]; exact List.nodup_cons.mpr ⟨hj, h⟩

/-- C7: the aligner never consumes an authoritative line twice: the list of
consumed indices accumulated over a whole run has no duplicates, for every
similarity function, segment list, line list and threshold. -/
theorem C7_no_line_reused (ratio : String → String → ℚ) (whisper : List (String × String))
    (genius : List String) (minSim : ℚ) :
    ((overrideLoop ratio genius minSim whisper []).2).Nodup :=
  overrideLoop_used_nodup ratio genius minSim whisper [] List.nodup_nil

/-! ## Timecode serialization: `ass_time_from_seconds`
(src/scripts/karaoke_time.py lines 17-23) and its round trip through
`parse_timestamp`. -/

/-- The ASCII digit character for `n < 10`. -/
def digitChar (n : ℕ) : Char := Char.ofNat (48 + n)

/-- Decimal digits of `n`, most significant first, with explicit fuel
(`fuel > n` suffices). -/
def natDigitsAux : ℕ → ℕ → List Char → List Char
  | 0, _, acc => acc
  | fuel + 1, n, acc =>
    if n < 10 then digitChar n :: acc
    else natDigitsAux fuel (n / 10) (digitChar (n % 10) :: acc)

/-- Python's `f"{n:d}"` for a natural number. -/
def natDigits (n : ℕ) : List Char := natDigitsAux (n + 1) n []

/-- Python's `f"{n:02d}"`. -/
def pad2 (n : ℕ) : List Char := if n < 10 then '0' :: natDigits n else natDigits n

/-- Exactly two digit characters for `k < 100`. -/
def twoDigits (k : ℕ) : List Char := [digitChar (k / 10), digitChar (k % 10)]

/-- Python's `f"{s:05.2f}"` for `0 ≤ s < 60`: the value rounded to
hundredths (`round` models the float formatting's rounding to two decimals;
any tie-breaking rule stays within the claimed tolerance), rendered as a
two-digit zero-padded integer part, a dot, and two fraction digits. -/
def secondsHundredths (s : ℚ) : List Char :=
  let cs : ℕ := (round (100 * s)).toNat
  pad2 (cs / 100) ++ '.' :: twoDigits (cs % 100)

/-- `ass_time_from_seconds` from src/scripts/karaoke_time.py lines 17-23:
clamp negatives to zero, split into `h = sec // 3600`,
`m = (sec % 3600) // 60`, `s = sec - h*3600 - m*60`, and render
`f"{h:d}:{m:02d}:{s:05.2f}"` (as the character list of the string). -/
def ass_time_from_seconds (sec0 : ℚ) : List Char :=
  let sec := if sec0 < 0 then 0 else sec0
  let h : ℤ := ⌊sec / 3600⌋
  let m : ℤ := ⌊(sec - 3600 * h) / 60⌋
  let s : ℚ := sec - h * 3600 - m * 60
  natDigits h.toNat ++ (':' :: (pad2 m.toNat ++ (':' :: secondsHundredths s)))

/-- The character properties needed of every digit the serializer emits. -/
def GoodDigit (c : Char) : Prop :=
  c.isDigit = true ∧ (c == ':') = false ∧ (c == '.') = false ∧ c.isWhitespace = false

instance (c : Char) : Decidable (GoodDigit c) := by
  unfold GoodDigit
  infer_instance

lemma digitChar_good (n : ℕ) (h : n < 10) : GoodDigit (digitChar n) := by
  interval_cases n <;> decide

lemma digitChar_toNat (n : ℕ) (h : n < 10) : (digitChar n).toNat = 48 + n := by
  interval_cases n <;> decide

lemma natDigitsAux_good :
    ∀ (fuel n : ℕ) (acc : List Char), (∀ c ∈ acc, GoodDigit c) →
      ∀ c ∈ natDigitsAux fuel n acc, GoodDigit c := by
  intro fuel
  induction fuel with
  | zero => intro n acc h; exact h
  | succ fuel ih =>
    intro n acc h c
    rw [natDigitsAux]
    by_cases hn : n < 10
    · rw [if_pos hn]
      intro hc
      rcases List.mem_cons.mp hc with hc | hc
      · subst hc; exact digitChar_good n hn
      · exact h c hc
    · rw [if_neg hn]
      intro hc
      refine ih (n / 10) (digitChar (n % 10) :: acc) ?_ c hc
      intro x hx
      rcases List.mem_cons.mp hx with hx | hx
      · subst hx; exact digitChar_good _ (Nat.mod_lt n (by norm_num))
      · exact h x hx

lemma natDigits_good (n : ℕ) : ∀ c ∈ natDigits n, GoodDigit c :=
  natDigitsAux_good (n + 1) n [] (by intro c hc; exact absurd hc (List.not_mem_nil c))

lemma pad2_good (n : ℕ) : ∀ c ∈ pad2 n, GoodDigit c := by
  intro c hc
  rw [pad2] at hc
  split_ifs at hc
  · rcases List.mem_cons.mp hc with hc | hc
    · subst hc; decide
    · exact natDigits_good n c hc
  · exact natDigits_good n c hc

lemma twoDigits_good (k : ℕ) (h : k < 100) : ∀ c ∈ twoDigits k, GoodDigit c := by
  intro c hc
  rcases List.mem_cons.mp hc with hc | hc
  · subst hc
    exact digitChar_good _ (Nat.div_lt_of_lt_mul (by omega))
  · rcases List.mem_cons.mp hc with hc | hc
    · subst hc
      exact digitChar_good _ (Nat.mod_lt k (by norm_num))
    · exact absurd hc (List.not_mem_nil c)

lemma secondsHundredths_good (s : ℚ) : ∀ c ∈ secondsHundredths s,
    GoodDigit c ∨ c = '.' := by
  intro c hc
  rw [secondsHundredths] at hc
  rcases List.mem_append.mp hc with hc | hc
  · exact Or.inl (pad2_good _ c hc)
  · rcases List.mem_cons.mp hc with hc | hc
    · exact Or.inr hc
    · exact Or.inl (twoDigits_good _ (Nat.mod_lt _ (by norm_num)) c hc)

lemma natDigitsAux_shift :
    ∀ (fuel n : ℕ) (acc : List Char),
      natDigitsAux fuel n acc = natDigitsAux fuel n [] ++ acc := by
  intro fuel
  induction fuel with
  | zero => intro n acc; rfl
  | succ fuel ih =>
    intro n acc
    rw [natDigitsAux, natDigitsAux]
    by_cases hn : n < 10
    · rw [if_pos hn, if_pos hn]
      rfl
    · rw [if_neg hn, if_neg hn, ih (n / 10) (digitChar (n % 10) :: acc),
        ih (n / 10) [digitChar (n % 10)]]
      simp

lemma natDigitsAux_fuel :
    ∀ (n fuel1 fuel2 : ℕ), n < fuel1 → n < fuel2 →
      natDigitsAux fuel1 n [] = natDigitsAux fuel2 n [] := by
  intro n
  induction n using Nat.strong_induction_on with
  | _ n ih =>
    intro fuel1 fuel2 h1 h2
    cases fuel1 with
    | zero => omega
    | succ f1 =>
      cases fuel2 with
      | zero => omega
      | succ f2 =>
        rw [natDigitsAux, natDigitsAux]
        by_cases hn : n < 10
        · rw [if_pos hn, if_pos hn]
        · rw [if_neg hn, if_neg hn,
            natDigitsAux_shift f1 (n / 10), natDigitsAux_shift f2 (n / 10)]
          have hlt : n / 10 < n := Nat.div_lt_self (by omega) (by norm_num)
          rw [ih (n / 10) hlt f1 f2 (by omega) (by omega)]

lemma parseNatAux_nil (a : ℕ) : parseNatAux a [] = a := rfl

lemma parseNatAux_cons (a : ℕ) (c : Char) (l : List Char) :
    parseNatAux a (c :: l) = parseNatAux (10 * a + (c.toNat - 48)) l := rfl

lemma parseNatAux_append (a : ℕ) :
    ∀ (l1 l2 : List Char),
      parseNatAux a (l1 ++ l2) = parseNatAux (parseNatAux a l1) l2 := by
  intro l1
  induction l1 generalizing a with
  | nil => intro l2; rfl
  | cons c l1 ih =>
    intro l2
    exact ih (10 * a + (c.toNat - 48)) l2

lemma parseNat_natDigits : ∀ (n : ℕ), parseNatDigits (natDigits n) = n := by
  intro n
  induction n using Nat.strong_induction_on with
  | _ n ih =>
    rw [natDigits, parseNatDigits, natDigitsAux]
    by_cases hn : n < 10
    · rw [if_pos hn, parseNatAux_cons, digitChar_toNat n hn, parseNatAux_nil]
      omega
    · rw [if_neg hn, natDigitsAux_shift]
      have hlt : n / 10 < n := Nat.div_lt_self (by omega) (by norm_num)
      rw [natDigitsAux_fuel (n / 10) n (n / 10 + 1) (by omega) (by omega)]
      rw [parseNatAux_append]
      have hrec : parseNatAux 0 (natDigitsAux (n / 10 + 1) (n / 10) []) = n / 10 := by
        have := ih (n / 10) hlt
        rw [natDigits, parseNatDigits] at this
        exact this
      rw [hrec, parseNatAux_cons, digitChar_toNat _ (Nat.mod_lt n (by norm_num)),
        parseNatAux_nil]
      omega

lemma parseNat_pad2 (n : ℕ) : parseNatDigits (pad2 n) = n := by
  rw [pad2]
  split_ifs with hn
  · rw [parseNatDigits, parseNatAux_cons]
    have h0 : 10 * 0 + (('0' : Char).toNat - 48) = 0 := by decide
    rw [h0]
    have := parseNat_natDigits n
    rw [parseNatDigits] at this
    exact this
  · exact parseNat_natDigits n

lemma parseNat_twoDigits (k : ℕ) (h : k < 100) : parseNatDigits (twoDigits k) = k := by
  rw [twoDigits, parseNatDigits, parseNatAux_cons,
    digitChar_toNat _ (Nat.div_lt_of_lt_mul (by omega)), parseNatAux_cons,
    digitChar_toNat _ (Nat.mod_lt k (by norm_num)), parseNatAux_nil]
  omega

lemma dropWhile_eq_self_of_none {p : Char → Bool} :
    ∀ l : List Char, (∀ c ∈ l, p c = false) → l.dropWhile p = l := by
  intro l h
  cases l with
  | nil => rfl
  | cons c l =>
    rw [List.dropWhile_cons, h c (List.mem_cons_self c l)]
    simp

lemma stripChars_eq_self (l : List Char) (h : ∀ c ∈ l, c.isWhitespace = false) :
    stripChars l = l := by
  rw [stripChars, dropWhile_eq_self_of_none l h, dropWhile_eq_self_of_none, List.reverse_reverse]
  intro c hc
  exact h c (List.mem_reverse.mp hc)

lemma takeWhile_append_stop {p : Char → Bool} :
    ∀ (A : List Char) (b : Char) (R : List Char), (∀ c ∈ A, p c = true) → p b = false →
      (A ++ b :: R).takeWhile p = A := by
  intro A
  induction A with
  | nil =>
    intro b R _ hb
    rw [List.nil_append, List.takeWhile_cons, hb]
    simp
  | cons a A ih =>
    intro b R h hb
    rw [List.cons_append, List.takeWhile_cons, h a (List.mem_cons_self a A)]
    simp only [if_true]
    rw [ih b R (fun c hc => h c (List.mem_cons_of_mem a hc)) hb]

lemma dropWhile_append_stop {p : Char → Bool} :
    ∀ (A : List Char) (b : Char) (R : List Char), (∀ c ∈ A, p c = true) → p b = false →
      (A ++ b :: R).dropWhile p = b :: R := by
  intro A
  induction A with
  | nil =>
    intro b R _ hb
    rw [List.nil_append, List.dropWhile_cons, hb]
    simp
  | cons a A ih =>
    intro b R h hb
    rw [List.cons_append, List.dropWhile_cons, h a (List.mem_cons_self a A)]
    simp only [if_true]
    rw [ih b R (fun c hc => h c (List.mem_cons_of_mem a hc)) hb]

lemma splitOnChar_no_sep (sep : Char) :
    ∀ l : List Char, (∀ c ∈ l, (c == sep) = false) → splitOnChar sep l = [l] := by
  intro l
  induction l with
  | nil => intro _; rfl
  | cons c l ih =>
    intro h
    rw [splitOnChar, h c (List.mem_cons_self c l)]
    simp only [Bool.false_eq_true, if_false]
    rw [ih (fun x hx => h x (List.mem_cons_of_mem c hx))]

lemma splitOnChar_append (sep : Char) :
    ∀ (A R : List Char), (∀ c ∈ A, (c == sep) = false) →
      splitOnChar sep (A ++ sep :: R) = A :: splitOnChar sep R := by
  intro A
  induction A with
  | nil =>
    intro R _
    rw [List.nil_append, splitOnChar]
    simp
  | cons c A ih =>
    intro R h
    rw [List.cons_append, splitOnChar, h c (List.mem_cons_self c A)]
    simp only [Bool.false_eq_true, if_false]
    rw [ih R (fun x hx => h x (List.mem_cons_of_mem c hx))]

lemma natDigits_ne_nil (n : ℕ) : natDigits n ≠ [] := by
  rw [natDigits, natDigitsAux]
  by_cases hn : n < 10
  · rw [if_pos hn]
    simp
  · rw [if_neg hn, natDigitsAux_shift]
    simp

lemma pad2_ne_nil (n : ℕ) : pad2 n ≠ [] := by
  rw [pad2]
  split_ifs
  · simp
  · exact natDigits_ne_nil n

lemma pyFloat_hundredths (ip fr : ℕ) (hfr : fr < 100) :
    pyFloat? (pad2 ip ++ '.' :: twoDigits fr) = some ((ip : ℚ) + (fr : ℚ) / 100) := by
  have hdigA : ∀ c ∈ pad2 ip, c.isDigit = true := fun c hc => (pad2_good ip c hc).1
  have hdigF : ∀ c ∈ twoDigits fr, c.isDigit = true := fun c hc =>
    (twoDigits_good fr hfr c hc).1
  have hwsall : ∀ c ∈ pad2 ip ++ '.' :: twoDigits fr, c.isWhitespace = false := by
    intro c hc
    rcases List.mem_append.mp hc with hc | hc
    · exact (pad2_good ip c hc).2.2.2
    · rcases List.mem_cons.mp hc with hc | hc
      · subst hc; decide
      · exact (twoDigits_good fr hfr c hc).2.2.2
  have htake : (pad2 ip ++ '.' :: twoDigits fr).takeWhile Char.isDigit = pad2 ip :=
    takeWhile_append_stop (pad2 ip) '.' (twoDigits fr) hdigA (by decide)
  have hdrop : (pad2 ip ++ '.' :: twoDigits fr).dropWhile Char.isDigit = '.' :: twoDigits fr :=
    dropWhile_append_stop (pad2 ip) '.' (twoDigits fr) hdigA (by decide)
  have hne : (pad2 ip).isEmpty = false := by
    cases hp : pad2 ip with
    | nil => exact absurd hp (pad2_ne_nil ip)
    | cons a l => rfl
  have hall : (twoDigits fr).all Char.isDigit = true := by
    rw [List.all_eq_true]
    exact hdigF
  have hnum : isNumericToken (pad2 ip ++ '.' :: twoDigits fr) = true := by
    rw [isNumericToken, hdrop]
    dsimp only
    rw [htake, hne, hall, twoDigits]
    rfl
  have h2 : parseNatDigits (twoDigits fr) = fr := parseNat_twoDigits fr hfr
  rw [pyFloat?, stripChars_eq_self _ hwsall, hnum]
  simp only [if_true]
  rw [htake, hdrop]
  dsimp only
  rw [parseNat_pad2, h2]
  norm_num [twoDigits]

lemma parse_three_parts (A B C : List Char)
    (hAg : ∀ c ∈ A, GoodDigit c) (hBg : ∀ c ∈ B, GoodDigit c)
    (hCg : ∀ c ∈ C, GoodDigit c ∨ c = '.') :
    parse_timestamp ⟨A ++ (':' :: (B ++ (':' :: C)))⟩ =
      (parseNatDigits A : ℚ) * 3600 + (parseNatDigits B : ℚ) * 60 + (pyFloat? C).getD 0 := by
  have hAd : ∀ c ∈ A, c.isDigit = true := fun c hc => (hAg c hc).1
  have hAns : ∀ c ∈ A, (c == ':') = false := fun c hc => (hAg c hc).2.1
  have hBns : ∀ c ∈ B, (c == ':') = false := fun c hc => (hBg c hc).2.1
  have hCns : ∀ c ∈ C, (c == ':') = false := by
    intro c hc
    rcases hCg c hc with h | h
    · exact h.2.1
    · subst h; decide
  have hwsL : ∀ c ∈ A ++ (':' :: (B ++ (':' :: C))), c.isWhitespace = false := by
    intro c hc
    rcases List.mem_append.mp hc with hc | hc
    · exact (hAg c hc).2.2.2
    · rcases List.mem_cons.mp hc with hc | hc
      · subst hc; decide
      · rcases List.mem_append.mp hc with hc | hc
        · exact (hBg c hc).2.2.2
        · rcases List.mem_cons.mp hc with hc | hc
          · subst hc; decide
          · rcases hCg c hc with h | h
            · exact h.2.2.2
            · subst h; decide
  have hdropL : (A ++ (':' :: (B ++ (':' :: C)))).dropWhile Char.isDigit =
      ':' :: (B ++ (':' :: C)) :=
    dropWhile_append_stop A ':' (B ++ (':' :: C)) hAd (by decide)
  have hnum : isNumericToken (A ++ (':' :: (B ++ (':' :: C)))) = false := by
    rw [isNumericToken, hdropL]
    have hcd : ((':' : Char) == '.') = false := by decide
    simp [hcd]
  have hsplit : splitOnChar ':' (A ++ (':' :: (B ++ (':' :: C)))) = [A, B, C] := by
    rw [splitOnChar_append ':' A (B ++ (':' :: C)) hAns,
      splitOnChar_append ':' B C hBns, splitOnChar_no_sep ':' C hCns]
  have hstripA : stripChars A = A := stripChars_eq_self A (fun c hc => (hAg c hc).2.2.2)
  have hstripB : stripChars B = B := stripChars_eq_self B (fun c hc => (hBg c hc).2.2.2)
  have hstripC : stripChars C = C := by
    apply stripChars_eq_self
    intro c hc
    rcases hCg c hc with h | h
    · exact h.2.2.2
    · subst h; decide
  rw [parse_timestamp]
  dsimp only
  rw [stripChars_eq_self _ hwsL, hnum]
  simp only [Bool.false_eq_true, if_false]
  rw [hsplit, List.map_cons, List.map_cons, List.map_cons, List.map_nil,
    hstripA, hstripB, hstripC]
  dsimp only
  rw [pyInt, hstripA, pyInt, hstripB]

lemma parse_timecode (hN mN : ℕ) (s : ℚ) :
    parse_timestamp ⟨natDigits hN ++ (':' :: (pad2 mN ++ (':' :: secondsHundredths s)))⟩ =
      (hN : ℚ) * 3600 + (mN : ℚ) * 60 +
        ((((round (100 * s)).toNat / 100 : ℕ) : ℚ) +
          (((round (100 * s)).toNat % 100 : ℕ) : ℚ) / 100) := by
  rw [parse_three_parts (natDigits hN) (pad2 mN) (secondsHundredths s)
    (natDigits_good hN) (pad2_good mN) (secondsHundredths_good s)]
  rw [parseNat_natDigits, parseNat_pad2]
  have hfr : (round (100 * s)).toNat % 100 < 100 := Nat.mod_lt _ (by norm_num)
  have hC : secondsHundredths s =
      pad2 ((round (100 * s)).toNat / 100) ++ '.' :: twoDigits ((round (100 * s)).toNat % 100) :=
    rfl
  rw [hC, pyFloat_hundredths _ _ hfr]
  rfl

/-- C9: serializing a non-negative time with `ass_time_from_seconds` and
re-parsing with `parse_timestamp` recovers the time to within `0.01`
seconds (in fact within `0.005`, the hundredths rounding error). -/
theorem C9_timecode_roundtrip (t : ℚ) (ht : 0 ≤ t) :
    |parse_timestamp ⟨ass_time_from_seconds t⟩ - t| ≤ 1 / 100 := by
  unfold ass_time_from_seconds
  rw [if_neg (not_lt.mpr ht)]
  set h : ℤ := ⌊t / 3600⌋ with hh
  set m : ℤ := ⌊(t - 3600 * h) / 60⌋ with hm
  set s : ℚ := t - h * 3600 - m * 60 with hs
  have hpos : 0 ≤ h := Int.floor_nonneg.mpr (by positivity)
  have h36 : (h : ℚ) * 3600 ≤ t := by
    have h1 : (h : ℚ) ≤ t / 3600 := Int.floor_le (t / 3600)
    nlinarith
  have hmpos : 0 ≤ m := by
    apply Int.floor_nonneg.mpr
    have : (0 : ℚ) ≤ t - 3600 * h := by linarith
    positivity
  have hs0 : 0 ≤ s := by
    have h1 : (m : ℚ) ≤ (t - 3600 * h) / 60 := Int.floor_le _
    rw [hs]
    nlinarith
  have hrnd : 0 ≤ round (100 * s) := by
    rw [round_eq]
    apply Int.floor_nonneg.mpr
    positivity
  rw [parse_timecode h.toNat m.toNat s]
  have hcasth : ((h.toNat : ℕ) : ℚ) = (h : ℚ) := by
    rw [← Int.toNat_of_nonneg hpos]
    push_cast
    rw [Int.toNat_of_nonneg hpos]
  have hcastm : ((m.toNat : ℕ) : ℚ) = (m : ℚ) := by
    rw [← Int.toNat_of_nonneg hmpos]
    push_cast
    rw [Int.toNat_of_nonneg hmpos]
  set cs : ℕ := (round (100 * s)).toNat with hcs
  have hcscast : ((cs : ℕ) : ℚ) = ((round (100 * s) : ℤ) : ℚ) := by
    rw [hcs]
    exact_mod_cast congrArg (fun z : ℤ => (z : ℚ)) (Int.toNat_of_nonneg hrnd)
  have hfrac : (((cs / 100 : ℕ) : ℚ) + ((cs % 100 : ℕ) : ℚ) / 100) = (cs : ℚ) / 100 := by
    have hdm : (100 * (cs / 100) + cs % 100 : ℕ) = cs := Nat.div_add_mod cs 100
    have h2 : ((100 * (cs / 100) + cs % 100 : ℕ) : ℚ) = (cs : ℚ) := by exact_mod_cast hdm
    push_cast at h2
    linarith
  rw [hcasth, hcastm, hfrac]
  have habs := abs_sub_round (100 * s)
  rw [abs_sub_comm] at habs
  have hteq : t = (h : ℚ) * 3600 + (m : ℚ) * 60 + s := by
    rw [hs]
    ring
  have hgoal : (h : ℚ) * 3600 + (m : ℚ) * 60 + (cs : ℚ) / 100 - t =
      (((round (100 * s) : ℤ) : ℚ) - 100 * s) / 100 := by
    rw [hcscast, hteq]
    ring
  rw [hgoal, abs_div]
  rw [abs_of_nonneg (by norm_num : (0 : ℚ) ≤ 100)]
  linarith


/-- Witness for `C9_timecode_roundtrip` at the concrete time `t = 3.5`. -/
theorem C9_timecode_roundtrip_witness :
    |parse_timestamp ⟨ass_time_from_seconds (7 / 2)⟩ - 7 / 2| ≤ 1 / 100 :=
  C9_timecode_roundtrip (7 / 2) (by norm_num)

end KaraokeTime
